import Mathlib

/-!
Shallow embedding of the CatLearn feature-matrix utilities
(`atoml/fpm_operations.py` and `atoml/fingerprint/setup.py`).

Matrices are represented column-major as `List (List ℚ)` for the
column-oriented operations of `fpm_operations.py` (each inner list is one
column of `n` entries), and row-major where the source iterates over rows
(`fpmatrix_split`, `return_vec`).  Real (numpy float) arithmetic is embedded
exactly over `ℚ`; `int()` truncation of a nonnegative float is `Rat.floor`.
-/

namespace CatLearn

/-- Function `triangular(n) = sum(range(n+1))` from `fpm_operations.py`. -/
def triangular (n : Nat) : Nat := (List.range (n+1)).sum

/-- Numpy column subsetting `X[:, accepted]` on a column-major matrix:
pick the columns listed in `idx`, in order. -/
def subsetCols (X : List (List ℚ)) (idx : List Nat) : List (List ℚ) :=
  idx.filterMap (fun i => X[i]?)

/-- Numpy subsetting `l[accepted]` on a label vector. -/
def subsetLabels (l : List String) (idx : List Nat) : List String :=
  idx.filterMap (fun i => l[i]?)

/-- A screening oracle `sure_independence_screening(y, X, size)` returning the
`accepted` index list.  The oracle is injected, as in the source (imported
from `fingerprint_setup`). -/
def Oracle : Type := List ℚ → List (List ℚ) → Nat → List Nat

/-- The `while shape[1] > size` loop of `do_sis`.  The Python loop keeps the
variable `shape` one assignment behind: `shape = np.shape(X)` runs at the top
of the body, so the loop condition tests the width recorded on the previous
iteration (`shape1` here).  `fuel` bounds the iteration count (the source
loop can diverge on a misbehaving oracle); `none` means fuel ran out with the
condition still true.  On success returns the final matrix, the final labels
and the number of oracle calls made. -/
def do_sisLoop (oracle : Oracle) (y : List ℚ) (size increment : Nat) :
    Nat → Nat → List (List ℚ) → List String →
    Option (List (List ℚ) × List String × Nat)
  | 0, shape1, X, l => if shape1 > size then none else some (X, l, 0)
  | fuel+1, shape1, X, l =>
    if shape1 > size then
      let shape1' := X.length
      let accepted := oracle y X (shape1' - increment)
      match do_sisLoop oracle y size increment fuel shape1'
          (subsetCols X accepted) (subsetLabels l accepted) with
      | some (Xf, lf, c) => some (Xf, lf, c+1)
      | none => none
    else some (X, l, 0)

/-- Number of rows of a column-major matrix (`np.shape(X)[0]`). -/
def nRows (X : List (List ℚ)) : Nat := (X.headD []).length

/-- Function `do_sis(X, y, l, size, increment)` from `fpm_operations.py`.
`l = none` models the default `l=None`: the initial check
`assert shape[1] == len(l)` then evaluates `len(None)` and raises a
`TypeError` before anything else runs; a present label list of the wrong
length fails the assert.  `size = none` models the default `size=None`
(replaced by the row count).  The outer `Option` is only the fuel bound of
the loop. -/
def do_sis (oracle : Oracle) (X : List (List ℚ)) (y : List ℚ)
    (l : Option (List String)) (size : Option Nat) (increment : Nat)
    (fuel : Nat) :
    Except String (Option (List (List ℚ) × List String × Nat)) :=
  match l with
  | none => Except.error "TypeError"
  | some lbls =>
    if X.length = lbls.length then
      let sz := size.getD (nRows X)
      Except.ok (do_sisLoop oracle y sz increment fuel X.length X lbls)
    else Except.error "AssertionError"

/-- An oracle that accepts exactly the first `size` column indices on every
call; it honours the screening-oracle contract of returning exactly the
requested number of accepted indices. -/
def firstOracle : Oracle := fun _ _ size => List.range size

/-- One iteration count of the `for _ in range(nsplit)` loop of
`fpmatrix_split` (path `fix_size=None`, `replacement=False`): emit the slice
`index[int(s1):int(s2)]`, then `r = max(0, r-1)` and
`s2 = s2 + n + min(1, r)`.  `s1`, `s2` are exact rationals standing for the
float accumulators; `int()` of the nonnegative accumulator is the floor
cast to `ℕ`. -/
def splitLoop (index : List Nat) (n : ℚ) :
    Nat → ℚ → ℚ → Nat → List (List Nat)
  | 0, _, _, _ => []
  | k+1, s1, s2, r =>
    let a := (⌊s1⌋).toNat
    let b := (⌊s2⌋).toNat
    let g := (index.drop a).take (b - a)
    let r2 := r - 1
    g :: splitLoop index n k s2 (s2 + n + min 1 (r2 : ℚ)) r2

/-- Method `fpmatrix_split(nsplit)` from `fpm_operations.py`, on the default path
`fix_size=None`, `replacement=False` (the path the claims address).  `X` is
the row list; `index` is the result of `shuffle(list(range(len(X))))`,
passed in explicitly because the source draws it from the process-wide
random source.  `n = len(X)/nsplit` is Python 3 true division, embedded
exactly in `ℚ`; `r = len(X) % nsplit`; the first slice bound is
`s2 = n + min(1, r)`. -/
def fpmatrix_split {α : Type} (X : List α) (nsplit : Nat)
    (index : List Nat) : List (List α) :=
  let L := X.length
  let n : ℚ := (L : ℚ) / (nsplit : ℚ)
  let r := L % nsplit
  let groups := splitLoop index n nsplit 0 (n + min 1 (r : ℚ)) r
  groups.map (fun g => g.filterMap (fun i => X[i]?))

/-- Column access `A[:, i]` on a column-major matrix. -/
def col (A : List (List ℚ)) (i : Nat) : List ℚ := A.getD i []

/-- Method `fpm_operations.get_order_2` from `fpm_operations.py`: the nested loops
`for f1 in range(m): for f2 in range(f1, m)` emit the elementwise column
products `A[:, f1] * A[:, f2]` in loop order.  The source writes them into
a preallocated `n x triangular(m)` zero matrix at consecutive positions
`nfi`; the emission order below is that fill order, and the proved length
equality `triangular m` shows the fill is exact. -/
def get_order_2 (A : List (List ℚ)) : List (List ℚ) :=
  (List.range A.length).flatMap (fun f1 =>
    (List.range' f1 (A.length - f1)).map (fun f2 =>
      List.zipWith (fun u v => u * v) (col A f1) (col A f2)))

/-- Method `fpm_operations.get_labels_order_2` from `fpm_operations.py`: the same
nested loops over the label vector, emitting `x[f1] + '_x_' + x[f2]`. -/
def get_labels_order_2 (x : List String) : List String :=
  (List.range x.length).flatMap (fun f1 =>
    (List.range' f1 (x.length - f1)).map (fun f2 =>
      x.getD f1 "" ++ "_x_" ++ x.getD f2 ""))

/-- Method `fpm_operations.get_order_2ab` from `fpm_operations.py`: the same
nested loops emitting `A[:, f1]**a * A[:, f2]**b`. -/
def get_order_2ab (A : List (List ℚ)) (a b : ℤ) : List (List ℚ) :=
  (List.range A.length).flatMap (fun f1 =>
    (List.range' f1 (A.length - f1)).map (fun f2 =>
      List.zipWith (fun u v => u ^ a * v ^ b) (col A f1) (col A f2)))

/-- The spec's column enumeration, written from the spec's words: all pairs
`(i, j)` over the `m` columns restricted to `i ≤ j`, in lexicographic order
with `i` outer and `j` inner. -/
def lexPairs (m : Nat) : List (Nat × Nat) :=
  ((List.range m).flatMap (fun i => (List.range m).map (fun j => (i, j)))).filter
    (fun p => decide (p.1 ≤ p.2))

/-- Method `FeatureGenerator.get_combined_descriptors(vec_list)` from
`fingerprint/setup.py`: assert `len(vec_list) >= 2`, reverse the list
(`vec_list[::-1]`), invoke each callable in that order and horizontally
concatenate (`np.hstack`).  `none` models the failed assertion. -/
def get_combined_descriptors {α : Type} (vec_list : List (Unit → List α)) :
    Option (List α) :=
  if 2 ≤ vec_list.length then
    some ((vec_list.reverse.map (fun f => f ())).flatten)
  else none

/-- The container shapes `return_vec` distinguishes: Python `list`,
`collections.defaultdict`, and anything else.  `elems` is the container's
iteration sequence. -/
inductive Container (σ : Type) where
  | list (elems : List σ)
  | defaultdict (elems : List σ)
  | other (elems : List σ)

/-- Iteration sequence of a container. -/
def Container.toList {σ : Type} : Container σ → List σ
  | .list xs => xs
  | .defaultdict xs => xs
  | .other xs => xs

/-- Check `isinstance(candidates, (list, defaultdict))` from `return_vec`. -/
def Container.isValid {σ : Type} : Container σ → Bool
  | .list _ => true
  | .defaultdict _ => true
  | .other _ => false

/-- Method `FeatureGenerator._concatenate_vec(atoms, vec_names)` from
`fingerprint/setup.py`: start from `np.array([])` and concatenate each
generator's output in the given order. -/
def concatenate_vec {σ : Type} (atoms : σ) (vec_names : List (σ → List ℚ)) :
    List ℚ :=
  vec_names.foldl (fun acc name => acc ++ name atoms) []

/-- Method `FeatureGenerator._get_vec(atoms, vec_names)` from
`fingerprint/setup.py`: a single generator is applied directly, several are
concatenated. -/
def get_vec {σ : Type} (atoms : σ) (vec_names : List (σ → List ℚ)) :
    List ℚ :=
  if vec_names.length = 1 then (vec_names.headD (fun _ => [])) atoms
  else concatenate_vec atoms vec_names

/-- Method `FeatureGenerator.return_vec(candidates, vec_names)` from
`fingerprint/setup.py`.  A container that is neither a list nor a
defaultdict raises `TypeError`; otherwise one row per structure, in
iteration order.  The source also wraps a bare generator into a singleton
list (the embedding takes the list directly) and lazily infers
`atom_types`/`atom_len`, cached state that does not enter the returned
rows (the generators are opaque here, as in the spec's collaborator
contract). -/
def return_vec {σ : Type} (candidates : Container σ)
    (vec_names : List (σ → List ℚ)) : Except String (List (List ℚ)) :=
  match candidates with
  | .other _ => Except.error "return_vec requires a list or dict of atoms"
  | .list xs => Except.ok (xs.map (fun atoms => get_vec atoms vec_names))
  | .defaultdict xs => Except.ok (xs.map (fun atoms => get_vec atoms vec_names))

/-- A structure as `get_keyvaluepair` sees it: only its `key_value_pairs`
metadata mapping matters.  Scalar metadata values are embedded as `ℚ`
(the source's `float(...)` coercion is exact on them). -/
structure Atoms where
  key_value_pairs : List (String × ℚ)

/-- The `for atoms in c` loop of `get_keyvaluepair`: look up `vec_name` in
each structure's metadata, failing at the first structure that lacks it
(Python raises `KeyError` there). -/
def lookupAll : List Atoms → String → Option (List ℚ)
  | [], _ => some []
  | a :: rest, vec_name =>
    match a.key_value_pairs.lookup vec_name with
    | none => none
    | some v =>
      match lookupAll rest vec_name with
      | none => none
      | some vs => some (v :: vs)

/-- Method `FeatureGenerator.get_keyvaluepair(c, vec_name)` from
`fingerprint/setup.py`: an empty collection yields the single label
`['kvp_' + vec_name]` (`Sum.inl`); otherwise the per-structure metadata
values (`Sum.inr`), raising `KeyError` when a structure lacks the field. -/
def get_keyvaluepair (c : List Atoms) (vec_name : String) :
    Except String (List String ⊕ List ℚ) :=
  if c.length = 0 then Except.ok (Sum.inl ["kvp_" ++ vec_name])
  else
    match lookupAll c vec_name with
    | some vals => Except.ok (Sum.inr vals)
    | none => Except.error "KeyError"

theorem range_filter_le (i m : Nat) :
    (List.range m).filter (fun j => decide (i ≤ j)) = List.range' i (m - i) := by
  induction m with
  | zero => simp
  | succ m ih =>
    rw [List.range_succ, List.filter_append, ih]
    by_cases h : i ≤ m
    · have h1 : m + 1 - i = (m - i) + 1 := by omega
      have h2 : i + 1 * (m - i) = m := by omega
      simp [h, h1, List.range'_concat, h2]
    · have h1 : m + 1 - i = 0 := by omega
      have h2 : m - i = 0 := by omega
      simp [h, h1, h2]

theorem lexPairs_eq (m : Nat) :
    lexPairs m =
      (List.range m).flatMap
        (fun i => (List.range' i (m - i)).map (fun j => (i, j))) := by
  unfold lexPairs
  rw [List.filter_flatMap]
  congr 1
  funext i
  rw [List.filter_map]
  have hc : ((fun p : Nat × Nat => decide (p.1 ≤ p.2)) ∘ fun j => (i, j))
      = fun j => decide (i ≤ j) := rfl
  rw [hc, range_filter_le]

theorem flatMap_eq_map_lexPairs {β : Type} (m : Nat) (F : Nat → Nat → β) :
    (List.range m).flatMap
        (fun f1 => (List.range' f1 (m - f1)).map (fun f2 => F f1 f2))
      = (lexPairs m).map (fun p => F p.1 p.2) := by
  rw [lexPairs_eq, List.map_flatMap]
  congr 1
  funext i
  rw [List.map_map]
  rfl

theorem sum_length_range_sub (m : Nat) :
    ((List.range m).map (fun i => m - i)).sum = triangular m := by
  induction m with
  | zero => rfl
  | succ m ih =>
    rw [List.range_succ_eq_map]
    simp only [List.map_cons, List.map_map, List.sum_cons]
    have he : ((List.range m).map ((fun i => m + 1 - i) ∘ Nat.succ)).sum
        = ((List.range m).map (fun i => m - i)).sum := by
      congr 1
      apply List.map_congr_left
      intro i _
      simp [Function.comp, Nat.succ_sub_succ]
    rw [he, ih]
    have ht : triangular (m + 1) = triangular m + (m + 1) := by
      simp [triangular, List.range_succ, Nat.add_assoc]
    omega

theorem lexPairs_length (m : Nat) : (lexPairs m).length = triangular m := by
  rw [lexPairs_eq, List.length_flatMap]
  have hm : (List.map
      (List.length ∘ fun f1 => (List.range' f1 (m - f1)).map (fun f2 => (f1, f2)))
      (List.range m)) = (List.range m).map (fun i => m - i) := by
    apply List.map_congr_left
    intro i _
    simp [Function.comp, List.length_map, List.length_range']
  rw [hm, sum_length_range_sub]

theorem mem_lexPairs {m : Nat} {p : Nat × Nat} (hp : p ∈ lexPairs m) :
    p.1 ≤ p.2 ∧ p.2 < m := by
  unfold lexPairs at hp
  rw [List.mem_filter] at hp
  obtain ⟨hmem, hle⟩ := hp
  rw [List.mem_flatMap] at hmem
  obtain ⟨i, hi, hmem⟩ := hmem
  rw [List.mem_map] at hmem
  obtain ⟨j, hj, rfl⟩ := hmem
  refine ⟨by simpa using hle, by simpa using List.mem_range.mp hj⟩

theorem col_length {A : List (List ℚ)} {n : Nat}
    (hA : A.map List.length = List.replicate A.length n) {i : Nat}
    (hi : i < A.length) :
    (col A i).length = n := by
  have hlen : i < (A.map List.length).length := by simpa using hi
  have h := List.getElem_of_eq hA hlen
  simp only [List.getElem_map, List.getElem_replicate] at h
  unfold col
  rw [List.getD_eq_getElem?_getD, List.getElem?_eq_getElem hi]
  simpa using h

/-- C1: the spec's screening scenario, evaluated on the code.  Six columns,
six labels, `size=2`, `increment=1`, and an oracle accepting exactly the
requested number of (first) column indices.  The claim says the loop makes
4 oracle calls and returns a 2-column matrix with 2 labels; because
`do_sis` tests the stale `shape` recorded one iteration earlier, the code
actually makes 5 oracle calls and returns a 1-column matrix with 1 label
(contradicting the function's own docstring `Output: X: n x size matrix`).
This theorem records the code's actual behaviour at that input. -/
theorem do_sis_six_column_scenario :
    do_sis firstOracle [[1],[2],[3],[4],[5],[6]] [0]
        (some ["a","b","c","d","e","f"]) (some 2) 1 10 =
      Except.ok (some ([[1]], ["a"], 5)) := by
  rfl

/-- C10: with the labels argument left at its default (`l=None`), `do_sis`
raises at the initial `assert shape[1] == len(l)` (Python evaluates
`len(None)`), before the loop and hence before any oracle call: the result
is the same error for every oracle, matrix, target vector, size and
increment, so the syntactically optional argument is in fact required. -/
theorem do_sis_none_labels_error (oracle : Oracle) (X : List (List ℚ))
    (y : List ℚ) (size : Option Nat) (increment fuel : Nat) :
    do_sis oracle X y none size increment fuel =
      Except.error "TypeError" := rfl

/-- C2: the claim's size guarantee, evaluated on the code.  Splitting 5 rows
into `nsplit = 3` groups (identity shuffle) is claimed to give group sizes
differing by at most one, the remainder spread to the earliest groups
(`[2, 2, 1]`).  The code's truncated float boundaries plus the extra
`min(1, r)` offsets actually give sizes `[2, 3, 0]` — one group is empty
and two differ by 3 — contradicting the intended even division its own
remainder bookkeeping aims at.  This theorem records the code's actual
behaviour at that input. -/
theorem fpmatrix_split_uneven_sizes :
    (fpmatrix_split ([0, 1, 2, 3, 4] : List Nat) 3 [0, 1, 2, 3, 4]).map
        List.length = [2, 3, 0] := by
  simp only [fpmatrix_split, splitLoop]
  norm_num [Int.floor_eq_iff, min_def]
  decide

/-- C4: method `get_order_2` on an `n x m` column-major matrix returns exactly
`triangular m = m(m+1)/2` columns, each of the `n` rows preserved
(every output column has length `n`), and column `k` is the elementwise
product `column_i * column_j` for the `k`-th pair `(i, j)` with `i ≤ j` in
lexicographic order (`i` outer, `j ≥ i` inner), as enumerated by
`lexPairs`; concretely, on `X = [[1,2],[3,4]]` (row-major) the result is
`[[1,2,4],[9,12,16]]`. -/
theorem get_order_2_spec (A : List (List ℚ)) (n : Nat)
    (hA : A.map List.length = List.replicate A.length n) :
    (get_order_2 A).length = triangular A.length
    ∧ (get_order_2 A).map List.length = List.replicate (triangular A.length) n
    ∧ get_order_2 A =
        (lexPairs A.length).map
          (fun p => List.zipWith (fun u v => u * v) (col A p.1) (col A p.2))
    ∧ (get_order_2 (List.transpose ([[1, 2], [3, 4]] : List (List ℚ)))).transpose
        = [[1, 2, 4], [9, 12, 16]] := by
  have h3 : get_order_2 A =
      (lexPairs A.length).map
        (fun p => List.zipWith (fun u v => u * v) (col A p.1) (col A p.2)) :=
    flatMap_eq_map_lexPairs A.length
      (fun f1 f2 => List.zipWith (fun u v => u * v) (col A f1) (col A f2))
  refine ⟨?_, ?_, h3, ?_⟩
  · rw [h3, List.length_map, lexPairs_length]
  · rw [h3, List.map_map, List.eq_replicate_iff]
    constructor
    · rw [List.length_map, lexPairs_length]
    · intro b hb
      rw [List.mem_map] at hb
      obtain ⟨p, hp, rfl⟩ := hb
      obtain ⟨hle, hlt⟩ := mem_lexPairs hp
      simp only [Function.comp_apply, List.length_zipWith,
        col_length hA (lt_of_le_of_lt hle hlt), col_length hA hlt]
      exact Nat.min_self n
  · have ht : List.transpose ([[1, 2], [3, 4]] : List (List ℚ))
        = [[1, 3], [2, 4]] := by decide
    rw [ht]
    have hr : List.range 2 = [0, 1] := by decide
    have h0 : List.range' 0 2 = [0, 1] := by decide
    have h1 : List.range' 1 1 = [1] := by decide
    have h2 : get_order_2 [[1, 3], [2, 4]] = [[1, 9], [2, 12], [4, 16]] := by
      simp only [get_order_2, col, List.length_cons, List.length_nil]
      norm_num [hr, h0, h1]
    rw [h2]
    decide

/-- C4 witness: the theorem applied to the 2x2 matrix with columns
`[1,3]` and `[2,4]`. -/
theorem get_order_2_spec_witness :
    ([[1, 3], [2, 4]] : List (List ℚ)).map List.length = List.replicate 2 2
    ∧ (get_order_2 [[1, 3], [2, 4]]).length = triangular 2 := by
  have h := get_order_2_spec ([[1, 3], [2, 4]] : List (List ℚ)) 2 (by decide)
  exact ⟨by decide, by simpa using h.1⟩

/-- C5: method `get_labels_order_2` on an `m`-length label vector returns one
label per column of `get_order_2` applied to an `m`-column matrix (equal
lengths), and its `k`-th entry is `label_i ++ "_x_" ++ label_j` for the
`k`-th pair of the identical `lexPairs` enumeration `get_order_2` uses, so
labels stay index-aligned with the numeric columns. -/
theorem get_labels_order_2_spec (x : List String) (A : List (List ℚ))
    (h : x.length = A.length) :
    (get_labels_order_2 x).length = (get_order_2 A).length
    ∧ get_labels_order_2 x =
        (lexPairs x.length).map
          (fun p => x.getD p.1 "" ++ "_x_" ++ x.getD p.2 "") := by
  have h2 : get_labels_order_2 x =
      (lexPairs x.length).map
        (fun p => x.getD p.1 "" ++ "_x_" ++ x.getD p.2 "") :=
    flatMap_eq_map_lexPairs x.length
      (fun f1 f2 => x.getD f1 "" ++ "_x_" ++ x.getD f2 "")
  refine ⟨?_, h2⟩
  have h3 : get_order_2 A =
      (lexPairs A.length).map
        (fun p => List.zipWith (fun u v => u * v) (col A p.1) (col A p.2)) :=
    flatMap_eq_map_lexPairs A.length
      (fun f1 f2 => List.zipWith (fun u v => u * v) (col A f1) (col A f2))
  rw [h2, h3, List.length_map, List.length_map, lexPairs_length,
    lexPairs_length, h]

/-- C5 witness: the theorem applied to labels `["a", "b"]` and a 2-column
matrix. -/
theorem get_labels_order_2_spec_witness :
    (["a", "b"] : List String).length = ([[1], [2]] : List (List ℚ)).length
    ∧ (get_labels_order_2 ["a", "b"]).length
        = (get_order_2 ([[1], [2]] : List (List ℚ))).length := by
  have h := get_labels_order_2_spec ["a", "b"]
    ([[1], [2]] : List (List ℚ)) (by decide)
  exact ⟨by decide, h.1⟩

/-- C6: the expansion variants share one column enumeration: column `k` of
`get_order_2ab A a b` is `column_i ^ a * column_j ^ b` for the same
`lexPairs` pair `(i, j)` that `get_order_2` uses for its column `k`, and
at exponents `a = b = 1` the two functions agree column for column. -/
theorem get_order_2ab_spec (A : List (List ℚ)) (a b : ℤ) :
    get_order_2ab A a b =
        (lexPairs A.length).map
          (fun p => List.zipWith (fun u v => u ^ a * v ^ b)
            (col A p.1) (col A p.2))
    ∧ get_order_2ab A 1 1 = get_order_2 A := by
  constructor
  · exact flatMap_eq_map_lexPairs A.length
      (fun f1 f2 => List.zipWith (fun u v => u ^ a * v ^ b)
        (col A f1) (col A f2))
  · unfold get_order_2ab get_order_2
    congr 1
    funext f1
    congr 1
    funext f2
    congr 1
    funext u v
    simp [zpow_one]

/-- C7: method `get_combined_descriptors` concatenates the callables' results in
the reverse of the input list order, and fails the precondition assert on
fewer than two entries; on exactly two callables the second's output comes
first. -/
theorem get_combined_descriptors_spec {α : Type} :
    (∀ fs : List (Unit → List α),
      get_combined_descriptors fs =
        if 2 ≤ fs.length then some ((fs.map (fun f => f ())).reverse.flatten)
        else none)
    ∧ (∀ g1 g2 : Unit → List α,
      get_combined_descriptors [g1, g2] = some (g2 () ++ g1 ())) := by
  constructor
  · intro fs
    unfold get_combined_descriptors
    rw [List.map_reverse]
  · intro g1 g2
    simp [get_combined_descriptors]

theorem lookupAll_eq_none_iff (c : List Atoms) (f : String) :
    lookupAll c f = none ↔ ∃ a ∈ c, a.key_value_pairs.lookup f = none := by
  induction c with
  | nil =>
    constructor
    · intro h
      exact Option.noConfusion h
    · rintro ⟨a, ha, h2⟩
      cases ha
  | cons a rest ih =>
    unfold lookupAll
    cases hl : a.key_value_pairs.lookup f with
    | none =>
      constructor
      · intro _
        exact ⟨a, List.mem_cons_self a rest, hl⟩
      · intro _
        rfl
    | some v =>
      cases hr : lookupAll rest f with
      | none =>
        rw [hr] at ih
        constructor
        · intro _
          obtain ⟨a2, ha2, h2⟩ := ih.mp rfl
          exact ⟨a2, List.mem_cons_of_mem a ha2, h2⟩
        · intro _
          rfl
      | some vs =>
        rw [hr] at ih
        constructor
        · intro h
          exact Option.noConfusion h
        · rintro ⟨a2, ha2, h2⟩
          rcases List.mem_cons.mp ha2 with rfl | hmem
          · rw [hl] at h2
            exact Option.noConfusion h2
          · exact Option.noConfusion (ih.mpr ⟨a2, hmem, h2⟩)

theorem lookupAll_eq_some (c : List Atoms) (f : String)
    (h : ∀ a ∈ c, (a.key_value_pairs.lookup f).isSome = true) :
    lookupAll c f =
      some (c.map (fun a => (a.key_value_pairs.lookup f).getD 0)) := by
  induction c with
  | nil => simp [lookupAll]
  | cons a rest ih =>
    have ha := h a (List.mem_cons_self a rest)
    cases hl : a.key_value_pairs.lookup f with
    | none => rw [hl] at ha; simp at ha
    | some v =>
      have hrest := ih (fun a2 h2 => h a2 (List.mem_cons_of_mem a h2))
      unfold lookupAll
      rw [hl, hrest]
      simp [hl]

/-- C8: method `return_vec` on a container that is a list or a defaultdict (the
precondition; any other container raises the invalid-input `TypeError`)
returns one row per structure: the row list is the map of `get_vec` over
the container's iteration sequence, so the row count equals the
container's length and row `k` is the fingerprint vector of the `k`-th
input structure. -/
theorem return_vec_spec {σ : Type} (c : Container σ)
    (vec_names : List (σ → List ℚ)) :
    (c.isValid = true →
      return_vec c vec_names =
          Except.ok (c.toList.map (fun atoms => get_vec atoms vec_names))
        ∧ (c.toList.map (fun atoms => get_vec atoms vec_names)).length
            = c.toList.length)
    ∧ (c.isValid = false →
      return_vec c vec_names =
        Except.error "return_vec requires a list or dict of atoms") := by
  cases c with
  | list xs =>
    exact ⟨fun _ => ⟨rfl, by simp⟩, fun h => by simp [Container.isValid] at h⟩
  | defaultdict xs =>
    exact ⟨fun _ => ⟨rfl, by simp⟩, fun h => by simp [Container.isValid] at h⟩
  | other xs =>
    exact ⟨fun h => by simp [Container.isValid] at h, fun _ => rfl⟩

/-- C8 witness: the theorem applied to a one-element list container and a
single identity-like generator. -/
theorem return_vec_spec_witness :
    (Container.list [(1 : ℚ)]).isValid = true
    ∧ return_vec (Container.list [(1 : ℚ)]) [fun q => [q]] =
        Except.ok [[1]] := by
  have h := return_vec_spec (Container.list [(1 : ℚ)]) [fun q => [q]]
  refine ⟨rfl, ?_⟩
  have h2 := (h.1 rfl).1
  rw [h2]
  rfl

/-- C9: method `get_keyvaluepair` on an empty structure collection returns the
single label `['kvp_' + field]`; on a non-empty collection it errors
exactly when some structure's metadata lacks the field, and when every
one has it, it returns the per-structure values in order. -/
theorem get_keyvaluepair_spec (c : List Atoms) (f : String) :
    get_keyvaluepair [] f = Except.ok (Sum.inl ["kvp_" ++ f])
    ∧ (c ≠ [] →
        (((∃ e, get_keyvaluepair c f = Except.error e) ↔
            ∃ a ∈ c, a.key_value_pairs.lookup f = none)
          ∧ ((∀ a ∈ c, (a.key_value_pairs.lookup f).isSome = true) →
              get_keyvaluepair c f =
                Except.ok (Sum.inr (c.map
                  (fun a => (a.key_value_pairs.lookup f).getD 0)))))) := by
  refine ⟨rfl, fun hne => ⟨?_, ?_⟩⟩
  · have hlen : ¬ c.length = 0 := by simpa using hne
    unfold get_keyvaluepair
    rw [if_neg hlen]
    cases hl : lookupAll c f with
    | none =>
      simp only []
      constructor
      · intro _
        exact (lookupAll_eq_none_iff c f).mp hl
      · intro _
        exact ⟨"KeyError", rfl⟩
    | some vals =>
      simp only []
      constructor
      · rintro ⟨e, he⟩
        exact absurd he (by simp)
      · intro hex
        have hn := (lookupAll_eq_none_iff c f).mpr hex
        rw [hl] at hn
        exact Option.noConfusion hn
  · intro hall
    have hlen : ¬ c.length = 0 := by simpa using hne
    unfold get_keyvaluepair
    rw [if_neg hlen, lookupAll_eq_some c f hall]

/-- C9 witness: the theorem applied to one structure carrying the field
`"t"` with value 3. -/
theorem get_keyvaluepair_spec_witness :
    ([Atoms.mk [("t", (3 : ℚ))]] ≠ ([] : List Atoms))
    ∧ get_keyvaluepair [Atoms.mk [("t", (3 : ℚ))]] "t" =
        Except.ok (Sum.inr [3]) := by
  have h := get_keyvaluepair_spec [Atoms.mk [("t", (3 : ℚ))]] "t"
  refine ⟨by simp, ?_⟩
  have h2 := (h.2 (by simp)).2 (by
    intro a ha
    rcases List.mem_singleton.mp ha with rfl
    rfl)
  rw [h2]
  rfl

theorem flatten_map_filterMap {α β : Type} (f : α → Option β)
    (gs : List (List α)) :
    (gs.map (fun g => g.filterMap f)).flatten = gs.flatten.filterMap f := by
  induction gs with
  | nil => rfl
  | cons g rest ih =>
    rw [List.map_cons, List.flatten_cons, List.flatten_cons,
      List.filterMap_append, ih]

theorem range_filterMap_getElem {α : Type} (l : List α) :
    (List.range l.length).filterMap (fun i => l[i]?) = l := by
  induction l with
  | nil => rfl
  | cons x xs ih =>
    rw [List.length_cons, List.range_succ_eq_map, List.filterMap_cons,
      List.filterMap_map]
    have hc : ((fun i => (x :: xs)[i]?) ∘ Nat.succ) = fun i => xs[i]? := by
      funext i
      simp
    rw [hc, ih]
    simp

theorem splitLoop_flatten (index : List Nat) (n : ℚ) :
    ∀ (k : Nat) (s1 s2 : ℚ) (r : Nat), 0 ≤ n → 0 ≤ s1 → s1 + n ≤ s2 →
      (index.length : ℚ) ≤ s1 + (k : ℚ) * n →
      (splitLoop index n k s1 s2 r).flatten = index.drop (⌊s1⌋).toNat := by
  intro k
  induction k with
  | zero =>
    intro s1 s2 r hn hs1 hss hL
    simp only [splitLoop, List.flatten_nil]
    symm
    apply List.drop_eq_nil_of_le
    have hL1 : (index.length : ℚ) ≤ s1 := by push_cast at hL; linarith
    have hfl : (index.length : ℤ) ≤ ⌊s1⌋ := by
      apply Int.le_floor.mpr
      exact_mod_cast hL1
    omega
  | succ k ih =>
    intro s1 s2 r hn hs1 hss hL
    simp only [splitLoop, List.flatten_cons]
    have hs2 : 0 ≤ s2 := by linarith
    have hmin : 0 ≤ min 1 (((r - 1 : Nat) : ℚ)) :=
      le_min zero_le_one (Nat.cast_nonneg _)
    have hrec := ih s2 (s2 + n + min 1 (((r - 1 : Nat) : ℚ))) (r - 1) hn hs2
      (by linarith)
      (by push_cast at hL ⊢; linarith)
    rw [hrec]
    have hfl : ⌊s1⌋ ≤ ⌊s2⌋ := Int.floor_le_floor (by linarith)
    have hab : (⌊s1⌋).toNat ≤ (⌊s2⌋).toNat := by omega
    have hdrop : index.drop ((⌊s2⌋).toNat) =
        (index.drop ((⌊s1⌋).toNat)).drop ((⌊s2⌋).toNat - (⌊s1⌋).toNat) := by
      rw [List.drop_drop]
      congr 1
      omega
    rw [hdrop, List.take_append_drop]

/-- C3: method `fpmatrix_split` with `fix_size=None` and `replacement=False` is an
exact partition of the rows: for every matrix, every `nsplit ≥ 1` and every
shuffle outcome (a permutation of the row indices), the concatenation of
the returned groups is a permutation of the rows of `X` — every row lands
in exactly one group, no omissions and no duplicates. -/
theorem fpmatrix_split_partition {α : Type} (X : List α) (nsplit : Nat)
    (index : List Nat) (h1 : 1 ≤ nsplit)
    (h2 : List.Perm index (List.range X.length)) :
    List.Perm (fpmatrix_split X nsplit index).flatten X := by
  unfold fpmatrix_split
  rw [flatten_map_filterMap]
  have hne : ((nsplit : ℚ)) ≠ 0 := by
    exact_mod_cast Nat.pos_iff_ne_zero.mp (by omega)
  have hn : (0 : ℚ) ≤ (X.length : ℚ) / (nsplit : ℚ) :=
    div_nonneg (Nat.cast_nonneg _) (Nat.cast_nonneg _)
  have hlen : index.length = X.length := by
    rw [h2.length_eq, List.length_range]
  have hL : (index.length : ℚ) ≤
      0 + (nsplit : ℚ) * ((X.length : ℚ) / (nsplit : ℚ)) := by
    rw [hlen, zero_add, mul_comm, div_mul_cancel₀ _ hne]
  have hmin : 0 ≤ min 1 ((X.length % nsplit : Nat) : ℚ) :=
    le_min zero_le_one (Nat.cast_nonneg _)
  have hjoin := splitLoop_flatten index ((X.length : ℚ) / (nsplit : ℚ))
    nsplit 0 ((X.length : ℚ) / (nsplit : ℚ) + min 1 ((X.length % nsplit : Nat) : ℚ))
    (X.length % nsplit) hn le_rfl (by linarith) hL
  rw [hjoin, Int.floor_zero, Int.toNat_zero, List.drop_zero]
  have hperm := List.Perm.filterMap (fun i => X[i]?) h2
  rwa [range_filterMap_getElem] at hperm

/-- C3 witness: the theorem applied to a 5-row matrix, `nsplit = 3` and a
concrete shuffle. -/
theorem fpmatrix_split_partition_witness :
    (1 ≤ 3 ∧ List.Perm [2, 0, 4, 1, 3] (List.range 5))
    ∧ List.Perm
        (fpmatrix_split ([10, 20, 30, 40, 50] : List Nat) 3
          [2, 0, 4, 1, 3]).flatten
        [10, 20, 30, 40, 50] := by
  have hp : List.Perm [2, 0, 4, 1, 3] (List.range 5) :=
    List.isPerm_iff.mp (by decide)
  refine ⟨⟨by norm_num, hp⟩, ?_⟩
  exact fpmatrix_split_partition ([10, 20, 30, 40, 50] : List Nat) 3
    [2, 0, 4, 1, 3] (by norm_num) hp

end CatLearn
